import Mathlib

/-!
Verification of the when-pigs-fly saturation engine

Shallow embedding of `src/main.rs`: the `Relation` entity (premise set
`from`, conclusion set `to`), its operations `cascades`, `matches`,
`extend`, `can_fly`, the two-phase saturation engine (free function
`can_fly`), the statement parser (`parse_from` / `parse_to`), and the
`main` verdict logic.

Rust `HashSet<String>` is embedded as `Finset String` (unordered,
deduplicated, decidable membership).  The `Vec<Relation>` with its
`RefCell` interior mutability is embedded as a `List Relation` threaded
through the pairwise folds; `std::ptr::eq` on two references into the
same vector holds exactly when the two indices coincide, so the
self-pair skip is embedded as an index-equality guard.  The engine's
`while changed` loop is embedded with an explicit fuel parameter
counting sweeps (`none` = fuel exhausted); fuel sufficiency is proved
(`loopRun_eq_satState`), so with the fuel used by `main_verdict` the
embedding is total exactly like the source.
-/

namespace PigsFly

/-- A relation between an object with traits and abilities and another
object with traits and abilities (struct `Relation` in `main.rs`).
`from` is immutable after construction; `to` is the mutable
(`RefCell`ed) conclusion set. -/
structure Relation where
  «from» : Finset String
  «to» : Finset String
deriving DecidableEq

/-- Constructor `Relation::new`. -/
def Relation.new (f t : Finset String) : Relation := ⟨f, t⟩

/-- Method `Relation::cascades`: `matching = |self.«to» ∩ other.from|`;
returns `other.from.len() == matching`. -/
def Relation.cascades (self other : Relation) : Bool :=
  decide (other.«from».card = (self.«to» ∩ other.«from»).card)

/-- Method `Relation::matches`: returns `|self.from ∩ other.from| == self.from.len()`. -/
def Relation.matches (self other : Relation) : Bool :=
  decide ((self.«from» ∩ other.«from»).card = self.«from».card)

/-- Method `Relation::extend`: unions `other.«to»` into `self.«to»`; the `Bool` is
`true` iff the length strictly grew.  The Rust method mutates
`self.«to»` in place; the embedding returns the updated relation. -/
def Relation.extend (self other : Relation) : Relation × Bool :=
  (⟨self.«from», self.«to» ∪ other.«to»⟩, decide (self.«to».card < (self.«to» ∪ other.«to»).card))

/-- Method `Relation::can_fly`: direct branch `from ∋ "PIGS" ∧ to ∋ "FLY"`,
plus (only when `all` is false) the looser branch `to ∋ "PIGS" ∧ to ∋ "FLY"`. -/
def Relation.can_fly (self : Relation) (all : Bool) : Bool :=
  (decide ("PIGS" ∈ self.«from») && decide ("FLY" ∈ self.«to»))
    || (!all && decide ("PIGS" ∈ self.«to») && decide ("FLY" ∈ self.«to»))

/-- The ordered pair enumeration of the engine's nested
`for relation_a in &relations { for relation_b in &relations { ... } }`
loops: all pairs `(a, b)` of indices below `n`, `a`-major. -/
def pairs (n : Nat) : List (Nat × Nat) :=
  (List.range n).flatMap (fun a => (List.range n).map (fun b => (a, b)))

/-- The pairs on which the engine actually calls `matches`/`cascades`/
`extend`: `pairs n` with the `std::ptr::eq` self-pairs removed. -/
def callPairs (n : Nat) : List (Nat × Nat) :=
  (pairs n).filter (fun p => decide (p.1 ≠ p.2))

/-- Body of one Phase-1 pair, self-pair check already passed:
`if relation_a.matches(relation_b) && relation_b.extend(relation_a) { changed = true }`.
(The `changed` flag is `true` throughout Phase 1 — it is initialized
`true` and never reset before the `while` loop — so it is not threaded
here; the loop below is entered unconditionally, as in the source.) -/
def phase1Call (rels : List Relation) (ab : Nat × Nat) : List Relation :=
  match rels.get? ab.1, rels.get? ab.2 with
  | some ra, some rb =>
      if ra.matches rb then rels.set ab.2 (rb.extend ra).1 else rels
  | _, _ => rels

/-- One Phase-1 pair including the `std::ptr::eq` self-pair skip. -/
def phase1Step (rels : List Relation) (ab : Nat × Nat) : List Relation :=
  if ab.1 = ab.2 then rels else phase1Call rels ab

/-- Phase 1 of the engine: the single premise-subset merge pass over all
ordered pairs. -/
def phase1 (rels : List Relation) : List Relation :=
  (pairs rels.length).foldl phase1Step rels

/-- Body of one Phase-2 pair, self-pair check already passed:
`if relation_a.cascades(relation_b) && relation_a.extend(relation_b) { changed = true }`.
State is the relation list plus the sweep's `changed` flag. -/
def sweepCall (st : List Relation × Bool) (ab : Nat × Nat) : List Relation × Bool :=
  match st.1.get? ab.1, st.1.get? ab.2 with
  | some ra, some rb =>
      if ra.cascades rb then
        (st.1.set ab.1 (ra.extend rb).1, st.2 || (ra.extend rb).2)
      else st
  | _, _ => st

/-- One Phase-2 pair including the `std::ptr::eq` self-pair skip. -/
def sweepStep (st : List Relation × Bool) (ab : Nat × Nat) : List Relation × Bool :=
  if ab.1 = ab.2 then st else sweepCall st ab

/-- One full Phase-2 sweep over all ordered pairs, starting from
`changed = false` (the loop body sets `changed = false` before the sweep). -/
def sweep (rels : List Relation) : List Relation × Bool :=
  (pairs rels.length).foldl sweepStep (rels, false)

/-- The per-sweep terminal check:
`for relation in &relations { if relation.can_fly(all) { return true } }`. -/
def anyCanFly (rels : List Relation) (all : Bool) : Bool :=
  rels.any (fun r => r.can_fly all)

/-- The engine's `while changed` loop: sweep, check the terminal
predicate, stop when a sweep changed nothing.  `fuel` bounds the number
of sweeps; `none` means the bound was hit before the loop finished. -/
def loopRun : Nat → List Relation → Bool → Option Bool
  | 0, _, _ => none
  | fuel + 1, rels, all =>
      let s := sweep rels
      if anyCanFly s.1 all then some true
      else if s.2 then loopRun fuel s.1 all
      else some false

/-- Free function `can_fly(relations, all)`: Phase 1 once, then the
Phase-2 loop (entered unconditionally since `changed` starts `true`). -/
def can_fly (fuel : Nat) (relations : List Relation) (all : Bool) : Option Bool :=
  loopRun fuel (phase1 relations) all

/-- The set of all labels appearing in a relation collection. -/
def allLabels (rels : List Relation) : Finset String :=
  rels.foldr (fun r acc => (r.«from» ∪ r.«to») ∪ acc) ∅

/-- Total conclusion-label count across all relations (the strictly
increasing quantity that bounds the number of sweeps). -/
def totalCard (rels : List Relation) : Nat :=
  (rels.map (fun r => r.«to».card)).sum

/-- Sweep-count bound sufficient for the loop to finish: number of
relations times number of distinct labels, plus one. -/
def fuelFor (relations : List Relation) : Nat :=
  relations.length * (allLabels relations).card + 1

/-- The `can_fly` run with provably sufficient fuel (the engine as `main` uses it). -/
def can_fly_run (relations : List Relation) (all : Bool) : Option Bool :=
  can_fly (fuelFor relations) relations all

/-- The verdict logic of `main`: `can_fly(relations.clone(), true)`,
else `can_fly(relations, false)`, else the negative line.  Both calls
start from the freshly loaded relations (the first call consumes a
deep clone). -/
def main_verdict (relations : List Relation) : Option String :=
  match can_fly_run relations true with
  | some true => some "All pigs can fly"
  | some false =>
      match can_fly_run relations false with
      | some true => some "Some pigs can fly"
      | some false => some "No pigs can fly"
      | none => none
  | none => none

/-- Phase-2 iteration without the terminal check: sweep until a sweep
reports no change (fuel-bounded).  Used to express the fully saturated
state for the refinement claim. -/
def satState : Nat → List Relation → List Relation
  | 0, rels => rels
  | fuel + 1, rels =>
      let s := sweep rels
      if s.2 then satState fuel s.1 else s.1

/-- The fully saturated relation collection: Phase 1 once, then Phase 2
to its fixpoint. -/
def saturate (relations : List Relation) : List Relation :=
  satState (fuelFor relations) (phase1 relations)

/-- Spec-side definition for the refinement claim, following the spec's
words: evaluate the terminal predicate once against the fully
saturated relation set. -/
def canFlySpec (relations : List Relation) (all : Bool) : Bool :=
  anyCanFly (saturate relations) all

/-- Rust `str::split_whitespace`, on an explicit character list:
split on whitespace, dropping empty tokens. -/
def splitWsAux : List Char → List Char → List String
  | [], acc => if acc.isEmpty then [] else [String.mk acc.reverse]
  | c :: cs, acc =>
      if c.isWhitespace then
        if acc.isEmpty then splitWsAux cs [] else String.mk acc.reverse :: splitWsAux cs []
      else splitWsAux cs (c :: acc)

/-- The call `buffer.split_whitespace()` as a token list. -/
def splitWs (s : String) : List String :=
  splitWsAux s.data []

/-- Function `parse_from`: consume tokens into the premise set until a connector
`are`/`have`/`can` (returning the remaining tokens), continuing over
`with`/`and` and `that can`.  Any other shape hits `unreachable!`,
embedded as `none`; in particular running out of tokens right after a
label is a panic (the wildcard arm also catches `None`). -/
def parse_from : Finset String → List String → Option (Finset String × List String)
  | acc, [] => some (acc, [])
  | _acc, [_value] => none
  | acc, value :: next :: rest =>
      if next = "with" ∨ next = "and" then parse_from (insert value acc) rest
      else if next = "that" then
        match rest with
        | "can" :: rest2 => parse_from (insert value acc) rest2
        | _ => none
      else if next = "are" ∨ next = "have" ∨ next = "can" then
        some (insert value acc, rest)
      else none

/-- Function `parse_to`: consume the remaining tokens into the conclusion set,
continuing over `with`/`and` and `that can`; end of tokens ends the
set, any other connector hits `unreachable!` (embedded as `none`). -/
def parse_to : Finset String → List String → Option (Finset String)
  | acc, [] => some acc
  | acc, [value] => some (insert value acc)
  | acc, value :: next :: rest =>
      if next = "with" ∨ next = "and" then parse_to (insert value acc) rest
      else if next = "that" then
        match rest with
        | "can" :: rest2 => parse_to (insert value acc) rest2
        | _ => none
      else none

/-- Function `read_relation`: tokenize one line, parse the premise part then the
conclusion part. -/
def read_relation (line : String) : Option Relation :=
  match parse_from ∅ (splitWs line) with
  | none => none
  | some (f, rest) =>
      match parse_to ∅ rest with
      | none => none
      | some t => some (Relation.new f t)

/-- Function `read_relations`: read `count` statement lines in order (a missing
line reads as the empty string, as `read_line` at end of input leaves
the cleared buffer empty). -/
def read_relations : Nat → List String → Option (List Relation)
  | 0, _ => some []
  | count + 1, lines =>
      match read_relation ((lines.head?).getD "") with
      | none => none
      | some r =>
          match read_relations count lines.tail with
          | none => none
          | some rs => some (r :: rs)

/-- The whole program on an input of a statement count followed by the
statement lines: load the relations, then print the verdict. -/
def program (count : Nat) (lines : List String) : Option String :=
  match read_relations count lines with
  | none => none
  | some relations => main_verdict relations

/-- Evolution order between engine states: same length, each premise
set unchanged, each conclusion set non-decreasing, and no labels beyond
the old state's label universe. -/
def Evolves (old new : List Relation) : Prop :=
  new.length = old.length ∧
  allLabels new ⊆ allLabels old ∧
  ∀ i r, old.get? i = some r →
    ∃ r', new.get? i = some r' ∧ r'.«from» = r.«from» ∧ r.«to» ⊆ r'.«to»

/-! ## List and label-universe lemmas -/

theorem foldl_inv {α β : Type} (f : α → β → α) (P : α → Prop)
    (hstep : ∀ a b, P a → P (f a b)) :
    ∀ (l : List β) (a : α), P a → P (l.foldl f a) := by
  intro l
  induction l with
  | nil => intro a h; exact h
  | cons x xs ih => intro a h; exact ih _ (hstep _ _ h)

theorem mem_allLabels {x : String} (rels : List Relation) :
    x ∈ allLabels rels ↔ ∃ r, r ∈ rels ∧ x ∈ r.«from» ∪ r.«to» := by
  induction rels with
  | nil => simp [allLabels]
  | cons r rs ih =>
      have h1 : allLabels (r :: rs) = (r.«from» ∪ r.«to») ∪ allLabels rs := rfl
      rw [h1, Finset.mem_union, ih]
      constructor
      · rintro (h | ⟨s, hs, hx⟩)
        · exact ⟨r, List.mem_cons_self r rs, h⟩
        · exact ⟨s, List.mem_cons_of_mem r hs, hx⟩
      · rintro ⟨s, hs, hx⟩
        rcases List.mem_cons.mp hs with h | h
        · exact Or.inl (h ▸ hx)
        · exact Or.inr ⟨s, h, hx⟩

theorem get?_subset_allLabels {rels : List Relation} {i : Nat} {r : Relation}
    (h : rels.get? i = some r) : r.«from» ∪ r.«to» ⊆ allLabels rels :=
  fun x hx => (mem_allLabels rels).mpr ⟨r, List.get?_mem h, hx⟩

theorem totalCard_cons (x : Relation) (xs : List Relation) :
    totalCard (x :: xs) = x.«to».card + totalCard xs := by
  simp [totalCard]

theorem totalCard_set :
    ∀ (rels : List Relation) (i : Nat) (r r' : Relation), rels.get? i = some r →
      totalCard (rels.set i r') + r.«to».card = totalCard rels + r'.«to».card := by
  intro rels
  induction rels with
  | nil => intro i r r' h; simp at h
  | cons x xs ih =>
      intro i r r' h
      cases i with
      | zero =>
          rw [List.get?_cons_zero] at h
          injection h with h
          subst h
          rw [List.set_cons_zero, totalCard_cons, totalCard_cons]
          omega
      | succ n =>
          rw [List.get?_cons_succ] at h
          have hx := ih n r r' h
          rw [List.set_cons_succ, totalCard_cons, totalCard_cons]
          omega

theorem set_self_of_get? :
    ∀ (rels : List Relation) (i : Nat) (r : Relation), rels.get? i = some r →
      rels.set i r = rels := by
  intro rels
  induction rels with
  | nil => intro i r h; simp at h
  | cons x xs ih =>
      intro i r h
      cases i with
      | zero =>
          rw [List.get?_cons_zero] at h
          injection h with h
          subst h
          rfl
      | succ n =>
          rw [List.get?_cons_succ] at h
          show x :: xs.set n r = x :: xs
          rw [ih n r h]

theorem to_subset_allLabels {rels : List Relation} {r : Relation} (h : r ∈ rels) :
    r.«to» ⊆ allLabels rels :=
  fun x hx => (mem_allLabels rels).mpr ⟨r, h, Finset.mem_union_right _ hx⟩

theorem totalCard_le_mul {U : Finset String} :
    ∀ (rels : List Relation), (∀ r ∈ rels, r.«to» ⊆ U) →
      totalCard rels ≤ rels.length * U.card := by
  intro rels
  induction rels with
  | nil => intro _; simp [totalCard]
  | cons x xs ih =>
      intro h
      have h1 : x.«to».card ≤ U.card := Finset.card_le_card (h x (List.mem_cons_self x xs))
      have h2 := ih (fun r hr => h r (List.mem_cons_of_mem x hr))
      have h3 : (x :: xs).length * U.card = xs.length * U.card + U.card := by
        rw [List.length_cons]; ring
      rw [totalCard_cons, h3]
      omega

theorem totalCard_le_bound (rels : List Relation) :
    totalCard rels ≤ rels.length * (allLabels rels).card :=
  totalCard_le_mul rels (fun _ hr => to_subset_allLabels hr)

/-! ## The evolution order -/

theorem evolves_refl (rels : List Relation) : Evolves rels rels :=
  ⟨rfl, Finset.Subset.refl _, fun _ r h => ⟨r, h, rfl, Finset.Subset.refl _⟩⟩

theorem evolves_trans {a b c : List Relation} (h1 : Evolves a b) (h2 : Evolves b c) :
    Evolves a c := by
  obtain ⟨hl1, hs1, hp1⟩ := h1
  obtain ⟨hl2, hs2, hp2⟩ := h2
  refine ⟨hl2.trans hl1, hs2.trans hs1, fun i r h => ?_⟩
  obtain ⟨r1, hg1, hf1, ht1⟩ := hp1 i r h
  obtain ⟨r2, hg2, hf2, ht2⟩ := hp2 i r1 hg1
  exact ⟨r2, hg2, hf2.trans hf1, ht1.trans ht2⟩

theorem evolves_allLabels {old new : List Relation} (h : Evolves old new) :
    allLabels new = allLabels old := by
  obtain ⟨hl, hs, hp⟩ := h
  refine Finset.Subset.antisymm hs (fun x hx => ?_)
  obtain ⟨r, hr, hxr⟩ := (mem_allLabels old).mp hx
  obtain ⟨i, hi⟩ := List.mem_iff_get?.mp hr
  obtain ⟨r', hg, hf, ht⟩ := hp i r hi
  refine (mem_allLabels new).mpr ⟨r', List.get?_mem hg, ?_⟩
  rcases Finset.mem_union.mp hxr with hx1 | hx2
  · exact Finset.mem_union_left _ (by rw [hf]; exact hx1)
  · exact Finset.mem_union_right _ (ht hx2)

theorem evolves_extend_set {rels : List Relation} {i j : Nat} {ri rj : Relation}
    (hi : rels.get? i = some ri) (hj : rels.get? j = some rj) :
    Evolves rels (rels.set i (ri.extend rj).1) := by
  refine ⟨List.length_set rels i _, ?_, ?_⟩
  · intro x hx
    obtain ⟨r, hr, hxr⟩ := (mem_allLabels _).mp hx
    obtain ⟨k, hk⟩ := List.mem_iff_get?.mp hr
    by_cases hki : k = i
    · subst hki
      rw [List.get?_set_eq, hi] at hk
      injection hk with hk
      subst hk
      rcases Finset.mem_union.mp hxr with hx1 | hx2
      · exact get?_subset_allLabels hi (Finset.mem_union_left _ hx1)
      · rcases Finset.mem_union.mp hx2 with hx3 | hx4
        · exact get?_subset_allLabels hi (Finset.mem_union_right _ hx3)
        · exact get?_subset_allLabels hj (Finset.mem_union_right _ hx4)
    · rw [List.get?_set_ne _ _ (fun he => hki he.symm)] at hk
      exact (mem_allLabels rels).mpr ⟨r, List.get?_mem hk, hxr⟩
  · intro k r hk
    by_cases hki : k = i
    · subst hki
      rw [hk] at hi
      injection hi with hi
      subst hi
      refine ⟨(r.extend rj).1, ?_, rfl, Finset.subset_union_left⟩
      rw [List.get?_set_eq, hk]
      rfl
    · refine ⟨r, ?_, rfl, Finset.Subset.refl _⟩
      rw [List.get?_set_ne _ _ (fun he => hki he.symm)]
      exact hk

theorem phase1Call_evolves (rels : List Relation) (ab : Nat × Nat) :
    Evolves rels (phase1Call rels ab) := by
  rcases h1 : rels.get? ab.1 with _ | ra <;> rcases h2 : rels.get? ab.2 with _ | rb <;>
    simp only [phase1Call, h1, h2]
  · exact evolves_refl rels
  · exact evolves_refl rels
  · exact evolves_refl rels
  · split
    · exact evolves_extend_set h2 h1
    · exact evolves_refl rels

theorem phase1Step_evolves (rels : List Relation) (ab : Nat × Nat) :
    Evolves rels (phase1Step rels ab) := by
  unfold phase1Step
  split
  · exact evolves_refl rels
  · exact phase1Call_evolves rels ab

theorem phase1_evolves (rels : List Relation) : Evolves rels (phase1 rels) :=
  foldl_inv phase1Step (Evolves rels)
    (fun st ab h => evolves_trans h (phase1Step_evolves st ab))
    (pairs rels.length) rels (evolves_refl rels)


/-! ## Basic lemmas about the set operations -/

theorem card_inter_eq_iff {s t : Finset String} : (s ∩ t).card = s.card ↔ s ⊆ t := by
  constructor
  · intro h
    exact Finset.inter_eq_left.mp
      (Finset.eq_of_subset_of_card_le Finset.inter_subset_left (le_of_eq h.symm))
  · intro h
    rw [Finset.inter_eq_left.mpr h]

/-- C5: `matches(a, b)` holds iff `a.from ⊆ b.from`; it is a pure test
(in this embedding it returns a `Bool` and leaves both relations
untouched by construction), and nothing forces symmetry. -/
theorem matches_iff_subset (a b : Relation) :
    a.matches b = true ↔ a.«from» ⊆ b.«from» := by
  unfold Relation.matches
  rw [decide_eq_true_iff]
  exact card_inter_eq_iff

/-- C4: `cascades(a, b)` holds iff `b.from ⊆ a.to`; it is a pure test
(in this embedding it returns a `Bool` and leaves both relations
untouched by construction), and nothing forces symmetry. -/
theorem cascades_iff_subset (a b : Relation) :
    a.cascades b = true ↔ b.«from» ⊆ a.«to» := by
  unfold Relation.cascades
  rw [decide_eq_true_iff]
  constructor
  · intro h
    exact Finset.inter_eq_right.mp
      (Finset.eq_of_subset_of_card_le Finset.inter_subset_right (le_of_eq h))
  · intro h
    rw [Finset.inter_eq_right.mpr h]

/-- C3: `can_fly(r, all)` holds iff the direct branch
(`"PIGS" ∈ from` and `"FLY" ∈ to`, evaluated regardless of `all`)
holds, or `all = false` and `to` contains both `"PIGS"` and `"FLY"`;
for `from = {"BIRDS"}`, `to = {"PIGS", "FLY"}` the strict query is
false and the loose query is true. -/
theorem can_fly_iff :
    (∀ (r : Relation) (all : Bool),
        r.can_fly all = true ↔
          ("PIGS" ∈ r.«from» ∧ "FLY" ∈ r.«to») ∨
            (all = false ∧ "PIGS" ∈ r.«to» ∧ "FLY" ∈ r.«to»)) ∧
      (Relation.mk {"BIRDS"} {"PIGS", "FLY"}).can_fly true = false ∧
      (Relation.mk {"BIRDS"} {"PIGS", "FLY"}).can_fly false = true := by
  refine ⟨fun r all => ?_, by decide, by decide⟩
  cases all <;>
    simp [Relation.can_fly, Bool.or_eq_true, Bool.and_eq_true, decide_eq_true_iff]

/-- C6: `extend(a, b)` leaves the premise set alone, unions `b.to` into
`a.to`, reports `true` exactly when the conclusion set strictly grew,
and an immediately repeated call changes nothing and reports `false`. -/
theorem extend_spec (a b : Relation) :
    (a.extend b).1.«from» = a.«from» ∧
    (a.extend b).1.«to» = a.«to» ∪ b.«to» ∧
    ((a.extend b).2 = true ↔ a.«to» ⊂ (a.extend b).1.«to») ∧
    (a.extend b).1.extend b = ((a.extend b).1, false) := by
  refine ⟨rfl, rfl, ?_, ?_⟩
  · show decide (a.«to».card < (a.«to» ∪ b.«to»).card) = true ↔ a.«to» ⊂ a.«to» ∪ b.«to»
    rw [decide_eq_true_iff]
    constructor
    · intro h
      refine Finset.ssubset_iff_subset_ne.mpr ⟨Finset.subset_union_left, fun heq => ?_⟩
      rw [← heq] at h
      exact Nat.lt_irrefl _ h
    · exact Finset.card_lt_card
  · simp [Relation.extend, Finset.union_assoc]

/-! ## The Phase-2 sweep: invariants -/

theorem can_fly_char (r : Relation) (all : Bool) :
    r.can_fly all = true ↔
      ("PIGS" ∈ r.«from» ∧ "FLY" ∈ r.«to») ∨
        (all = false ∧ "PIGS" ∈ r.«to» ∧ "FLY" ∈ r.«to») := by
  cases all <;>
    simp [Relation.can_fly, Bool.or_eq_true, Bool.and_eq_true, decide_eq_true_iff]

theorem can_fly_mono {r r' : Relation} (hf : r'.«from» = r.«from») (ht : r.«to» ⊆ r'.«to»)
    {all : Bool} (h : r.can_fly all = true) : r'.can_fly all = true := by
  rcases (can_fly_char r all).mp h with ⟨h1, h2⟩ | ⟨h0, h1, h2⟩
  · exact (can_fly_char r' all).mpr (Or.inl ⟨by rw [hf]; exact h1, ht h2⟩)
  · exact (can_fly_char r' all).mpr (Or.inr ⟨h0, ht h1, ht h2⟩)

theorem anyCanFly_mono {old new : List Relation} (h : Evolves old new) (all : Bool)
    (ha : anyCanFly old all = true) : anyCanFly new all = true := by
  obtain ⟨r, hr, hcf⟩ := List.any_eq_true.mp ha
  obtain ⟨i, hi⟩ := List.mem_iff_get?.mp hr
  obtain ⟨r', hg, hf, ht⟩ := h.2.2 i r hi
  exact List.any_eq_true.mpr ⟨r', List.get?_mem hg, can_fly_mono hf ht hcf⟩

/-- The combined invariant carried through one sweep's fold. -/
def SweepInv (rels0 : List Relation) (st : List Relation × Bool) : Prop :=
  Evolves rels0 st.1 ∧ totalCard rels0 ≤ totalCard st.1 ∧
    (st.2 = true → totalCard rels0 < totalCard st.1) ∧
    (st.2 = false → st.1 = rels0)

theorem sweepCall_inv {rels0 : List Relation} (st : List Relation × Bool) (ab : Nat × Nat)
    (hP : SweepInv rels0 st) : SweepInv rels0 (sweepCall st ab) := by
  obtain ⟨hev, hle, hlt, hfix⟩ := hP
  rcases h1 : st.1.get? ab.1 with _ | ra <;> rcases h2 : st.1.get? ab.2 with _ | rb <;>
    simp only [sweepCall, h1, h2]
  · exact ⟨hev, hle, hlt, hfix⟩
  · exact ⟨hev, hle, hlt, hfix⟩
  · exact ⟨hev, hle, hlt, hfix⟩
  · split
    · have heq := totalCard_set st.1 ab.1 ra (ra.extend rb).1 h1
      rw [show (ra.extend rb).1.«to» = ra.«to» ∪ rb.«to» from rfl] at heq
      have hcard : ra.«to».card ≤ (ra.«to» ∪ rb.«to»).card :=
        Finset.card_le_card Finset.subset_union_left
      refine ⟨evolves_trans hev (evolves_extend_set h1 h2), ?_, ?_, ?_⟩
      · show totalCard rels0 ≤ totalCard (st.1.set ab.1 (ra.extend rb).1)
        omega
      · intro hflag
        show totalCard rels0 < totalCard (st.1.set ab.1 (ra.extend rb).1)
        rcases Bool.or_eq_true_iff.mp hflag with hst | hgrew
        · have := hlt hst
          omega
        · have hlt2 : ra.«to».card < (ra.«to» ∪ rb.«to»).card := of_decide_eq_true hgrew
          omega
      · intro hflag
        show st.1.set ab.1 (ra.extend rb).1 = rels0
        rcases Bool.or_eq_false_iff.mp hflag with ⟨hst, hgrew⟩
        have hng : ¬ ra.«to».card < (ra.«to» ∪ rb.«to»).card := of_decide_eq_false hgrew
        have hu : ra.«to» = ra.«to» ∪ rb.«to» :=
          Finset.eq_of_subset_of_card_le Finset.subset_union_left (by omega)
        have hr : (ra.extend rb).1 = ra := by
          show (⟨ra.«from», ra.«to» ∪ rb.«to»⟩ : Relation) = ra
          rw [← hu]
        rw [hr, set_self_of_get? st.1 ab.1 ra h1]
        exact hfix hst
    · exact ⟨hev, hle, hlt, hfix⟩

theorem sweepStep_inv {rels0 : List Relation} (st : List Relation × Bool) (ab : Nat × Nat)
    (hP : SweepInv rels0 st) : SweepInv rels0 (sweepStep st ab) := by
  unfold sweepStep
  split
  · exact hP
  · exact sweepCall_inv st ab hP

theorem sweep_spec (rels : List Relation) : SweepInv rels (sweep rels) :=
  foldl_inv sweepStep (SweepInv rels) (fun st ab h => sweepStep_inv st ab h)
    (pairs rels.length) (rels, false)
    ⟨evolves_refl rels, le_refl _, fun h => by simp at h, fun _ => rfl⟩

/-! ## The while loop and the saturated state -/

theorem evolves_satState (fuel : Nat) :
    ∀ rels : List Relation, Evolves rels (satState fuel rels) := by
  induction fuel with
  | zero => intro rels; exact evolves_refl rels
  | succ n ih =>
      intro rels
      show Evolves rels (if (sweep rels).2 then satState n (sweep rels).1 else (sweep rels).1)
      split
      · exact evolves_trans (sweep_spec rels).1 (ih (sweep rels).1)
      · exact (sweep_spec rels).1

theorem loopRun_eq_satState (fuel : Nat) :
    ∀ (rels : List Relation) (all : Bool),
      rels.length * (allLabels rels).card + 1 ≤ fuel + totalCard rels →
      loopRun fuel rels all = some (anyCanFly (satState fuel rels) all) := by
  induction fuel with
  | zero =>
      intro rels all h
      exfalso
      have hb := totalCard_le_bound rels
      omega
  | succ n ih =>
      intro rels all h
      show (if anyCanFly (sweep rels).1 all then some true
            else if (sweep rels).2 then loopRun n (sweep rels).1 all else some false) =
          some (anyCanFly (if (sweep rels).2 then satState n (sweep rels).1 else (sweep rels).1)
            all)
      have hev := (sweep_spec rels).1
      have hlen : (sweep rels).1.length = rels.length := hev.1
      have hA : allLabels (sweep rels).1 = allLabels rels := evolves_allLabels hev
      by_cases hpred : anyCanFly (sweep rels).1 all = true
      · rw [if_pos hpred]
        by_cases hch : (sweep rels).2 = true
        · rw [if_pos hch, anyCanFly_mono (evolves_satState n (sweep rels).1) all hpred]
        · rw [if_neg hch, hpred]
      · rw [if_neg hpred]
        have hpredf : anyCanFly (sweep rels).1 all = false := by
          revert hpred; cases anyCanFly (sweep rels).1 all <;> simp
        by_cases hch : (sweep rels).2 = true
        · have hlt := (sweep_spec rels).2.2.1 hch
          rw [if_pos hch, if_pos hch, ih (sweep rels).1 all (by rw [hlen, hA]; omega)]
        · rw [if_neg hch, if_neg hch, hpredf]

theorem satState_fixpoint (fuel : Nat) :
    ∀ rels : List Relation,
      rels.length * (allLabels rels).card + 1 ≤ fuel + totalCard rels →
      (sweep (satState fuel rels)).2 = false := by
  induction fuel with
  | zero =>
      intro rels h
      exfalso
      have hb := totalCard_le_bound rels
      omega
  | succ n ih =>
      intro rels h
      show (sweep (if (sweep rels).2 then satState n (sweep rels).1 else (sweep rels).1)).2 = false
      have hev := (sweep_spec rels).1
      have hlen : (sweep rels).1.length = rels.length := hev.1
      have hA : allLabels (sweep rels).1 = allLabels rels := evolves_allLabels hev
      by_cases hch : (sweep rels).2 = true
      · have hlt := (sweep_spec rels).2.2.1 hch
        rw [if_pos hch]
        exact ih (sweep rels).1 (by rw [hlen, hA]; omega)
      · have hchf : (sweep rels).2 = false := by
          revert hch; cases (sweep rels).2 <;> simp
        rw [if_neg hch, (sweep_spec rels).2.2.2 hchf]
        exact hchf

/-- The engine with its actual fuel always answers, and its answer is
the terminal predicate at the fully saturated state. -/
theorem can_fly_run_eq (rels : List Relation) (all : Bool) :
    can_fly_run rels all = some (canFlySpec rels all) := by
  have hev := phase1_evolves rels
  have hlen : (phase1 rels).length = rels.length := hev.1
  have hA : allLabels (phase1 rels) = allLabels rels := evolves_allLabels hev
  show loopRun (fuelFor rels) (phase1 rels) all =
    some (anyCanFly (satState (fuelFor rels) (phase1 rels)) all)
  exact loopRun_eq_satState (fuelFor rels) (phase1 rels) all
    (by rw [hlen, hA]; show rels.length * (allLabels rels).card + 1 ≤ fuelFor rels + _; unfold fuelFor; omega)

/-- The saturated state really is a fixpoint of the sweep. -/
theorem saturate_fix (rels : List Relation) : (sweep (saturate rels)).2 = false := by
  have hev := phase1_evolves rels
  have hlen : (phase1 rels).length = rels.length := hev.1
  have hA : allLabels (phase1 rels) = allLabels rels := evolves_allLabels hev
  show (sweep (satState (fuelFor rels) (phase1 rels))).2 = false
  exact satState_fixpoint (fuelFor rels) (phase1 rels)
    (by rw [hlen, hA]; show rels.length * (allLabels rels).card + 1 ≤ fuelFor rels + _; unfold fuelFor; omega)

/-! ## Guarded-fold decomposition (self-pair exclusion) -/

theorem foldl_guard {α β : Type} (g : β → Bool) (f : α → β → α) :
    ∀ (l : List β) (a : α),
      l.foldl (fun st x => if g x then f st x else st) a = (l.filter g).foldl f a := by
  intro l
  induction l with
  | nil => intro a; rfl
  | cons x xs ih =>
      intro a
      by_cases hg : g x = true
      · simp only [List.foldl_cons, List.filter_cons, if_pos hg]
        exact ih _
      · simp only [List.foldl_cons, List.filter_cons, if_neg hg]
        exact ih _

theorem sweepStep_eq_guard (st : List Relation × Bool) (ab : Nat × Nat) :
    sweepStep st ab = if decide (ab.1 ≠ ab.2) then sweepCall st ab else st := by
  by_cases h : ab.1 = ab.2
  · rw [show sweepStep st ab = if ab.1 = ab.2 then st else sweepCall st ab from rfl,
      if_pos h, if_neg (by simp [h])]
  · rw [show sweepStep st ab = if ab.1 = ab.2 then st else sweepCall st ab from rfl,
      if_neg h, if_pos (by simp [h])]

theorem phase1Step_eq_guard (rels : List Relation) (ab : Nat × Nat) :
    phase1Step rels ab = if decide (ab.1 ≠ ab.2) then phase1Call rels ab else rels := by
  by_cases h : ab.1 = ab.2
  · rw [show phase1Step rels ab = if ab.1 = ab.2 then rels else phase1Call rels ab from rfl,
      if_pos h, if_neg (by simp [h])]
  · rw [show phase1Step rels ab = if ab.1 = ab.2 then rels else phase1Call rels ab from rfl,
      if_neg h, if_pos (by simp [h])]

/-! ## Claim theorems -/

/-- C1 counterexample: on the input `2` / `"PIGS have WINGS"` /
`"things with WINGS can FLY"` the program does NOT print
"All pigs can fly" (the claim's asserted output is wrong). -/
theorem scenario1_not_all :
    program 2 ["PIGS have WINGS", "things with WINGS can FLY"] ≠ some "All pigs can fly" := by
  decide

/-- C1 amended: on that input, relation 2's premise set is
`{"things", "WINGS"}` — the leading token `things` is parsed as an
ordinary premise label — so no cascade ever fires (the first and only
sweep reports no change) and the program prints "No pigs can fly". -/
theorem scenario1_verdict :
    program 2 ["PIGS have WINGS", "things with WINGS can FLY"] = some "No pigs can fly" ∧
    (read_relation "things with WINGS can FLY").map
      (fun r => decide ("things" ∈ r.«from») && decide ("WINGS" ∈ r.«from») &&
        decide (r.«from».card = 2)) = some true ∧
    (read_relations 2 ["PIGS have WINGS", "things with WINGS can FLY"]).map
      (fun rels => (sweep (phase1 rels)).2) = some false := by
  exact ⟨by decide, by decide, by decide⟩

/-- C2: for every loaded relation collection the program prints exactly
one verdict line, selected by first evaluating the saturation query
with `all = true`, then with `all = false`, else the negative line. -/
theorem verdict_trichotomy (rels : List Relation) :
    ∃ b1 b2 : Bool,
      can_fly_run rels true = some b1 ∧ can_fly_run rels false = some b2 ∧
      main_verdict rels =
        some (if b1 then "All pigs can fly"
              else if b2 then "Some pigs can fly" else "No pigs can fly") := by
  refine ⟨canFlySpec rels true, canFlySpec rels false,
    can_fly_run_eq rels true, can_fly_run_eq rels false, ?_⟩
  unfold main_verdict
  rw [can_fly_run_eq rels true, can_fly_run_eq rels false]
  cases canFlySpec rels true <;> cases canFlySpec rels false <;> rfl

/-- C7: across Phase 1, across any single Phase-2 sweep, and across any
number of Phase-2 sweeps after Phase 1 (i.e. the whole saturation run),
each relation's premise set is unchanged and its conclusion set is
monotone non-decreasing under set inclusion. -/
theorem run_monotone (rels : List Relation) (k i : Nat) (r : Relation)
    (h : rels.get? i = some r) :
    (∃ r1, (phase1 rels).get? i = some r1 ∧ r1.«from» = r.«from» ∧ r.«to» ⊆ r1.«to») ∧
    (∃ r2, (sweep rels).1.get? i = some r2 ∧ r2.«from» = r.«from» ∧ r.«to» ⊆ r2.«to») ∧
    (∃ r3, (satState k (phase1 rels)).get? i = some r3 ∧
      r3.«from» = r.«from» ∧ r.«to» ⊆ r3.«to») :=
  ⟨(phase1_evolves rels).2.2 i r h, (sweep_spec rels).1.2.2 i r h,
    (evolves_trans (phase1_evolves rels) (evolves_satState k (phase1 rels))).2.2 i r h⟩

/-- Witness for C7: the monotonicity theorem applied at a concrete
one-relation collection. -/
theorem run_monotone_witness :
    (∃ r1, (phase1 [Relation.new {"PIGS"} {"WINGS"}]).get? 0 = some r1 ∧
      r1.«from» = (Relation.new {"PIGS"} {"WINGS"}).«from» ∧
      (Relation.new {"PIGS"} {"WINGS"}).«to» ⊆ r1.«to») ∧
    (∃ r2, (sweep [Relation.new {"PIGS"} {"WINGS"}]).1.get? 0 = some r2 ∧
      r2.«from» = (Relation.new {"PIGS"} {"WINGS"}).«from» ∧
      (Relation.new {"PIGS"} {"WINGS"}).«to» ⊆ r2.«to») ∧
    (∃ r3, (satState 1 (phase1 [Relation.new {"PIGS"} {"WINGS"}])).get? 0 = some r3 ∧
      r3.«from» = (Relation.new {"PIGS"} {"WINGS"}).«from» ∧
      (Relation.new {"PIGS"} {"WINGS"}).«to» ⊆ r3.«to») :=
  run_monotone [Relation.new {"PIGS"} {"WINGS"}] 1 0 (Relation.new {"PIGS"} {"WINGS"}) rfl

/-- C8: for every finite relation collection and both flag values, the
engine run with fuel (number of relations × number of distinct labels)
+ 1 never exhausts it: the Phase-2 loop stops within that many sweeps. -/
theorem saturation_bounded (rels : List Relation) (all : Bool) :
    (can_fly (rels.length * (allLabels rels).card + 1) rels all).isSome = true := by
  have hev := phase1_evolves rels
  have hlen : (phase1 rels).length = rels.length := hev.1
  have hA : allLabels (phase1 rels) = allLabels rels := evolves_allLabels hev
  show (loopRun _ (phase1 rels) all).isSome = true
  rw [loopRun_eq_satState _ (phase1 rels) all (by rw [hlen, hA]; omega)]
  rfl

/-- C9: both phases act through the self-pair-free pair list
`callPairs`: every pair actually passed to `matches`/`cascades`/
`extend` has distinct indices (distinct relation instances — instance
identity in the vector is index identity), and folding the unguarded
call bodies over `callPairs` reproduces `sweep` and `phase1` exactly. -/
theorem self_exclusion (rels : List Relation) :
    (callPairs rels.length).all (fun p => decide (p.1 ≠ p.2)) = true ∧
    sweep rels = (callPairs rels.length).foldl sweepCall (rels, false) ∧
    phase1 rels = (callPairs rels.length).foldl phase1Call rels := by
  refine ⟨?_, ?_, ?_⟩
  · rw [List.all_eq_true]
    intro p hp
    unfold callPairs at hp
    exact (List.mem_filter.mp hp).2
  · show (pairs rels.length).foldl sweepStep (rels, false) = _
    rw [List.foldl_ext sweepStep
      (fun st ab => if decide (ab.1 ≠ ab.2) then sweepCall st ab else st) _
      (fun a b _ => sweepStep_eq_guard a b)]
    exact foldl_guard (fun p => decide (p.1 ≠ p.2)) sweepCall (pairs rels.length) (rels, false)
  · show (pairs rels.length).foldl phase1Step rels = _
    rw [List.foldl_ext phase1Step
      (fun st ab => if decide (ab.1 ≠ ab.2) then phase1Call st ab else st) _
      (fun a b _ => phase1Step_eq_guard a b)]
    exact foldl_guard (fun p => decide (p.1 ≠ p.2)) phase1Call (pairs rels.length) rels

/-- C10: the engine's per-sweep early-exit check computes exactly the
terminal predicate evaluated on the fully saturated state (Phase 1
once, then Phase 2 swept until the sweep reports no change — the
second conjunct), for both flag values, so caching the saturated state
for the second query is sound. -/
theorem engine_refines_saturation (rels : List Relation) (all : Bool) :
    can_fly_run rels all = some (canFlySpec rels all) ∧
    (sweep (saturate rels)).2 = false :=
  ⟨can_fly_run_eq rels all, saturate_fix rels⟩

end PigsFly
